import Mathlib

/-!
Verification of the search-and-evaluation engine of `src/api/brain.py`.

The rules engine (python-chess) is an external collaborator: it is modelled
as an oracle game tree `GTree`, where a node carries the value the static
evaluator `evaluate_board` would produce at that position, the boolean the
rules engine's `is_game_over()` query would return there, and the list of
positions reachable by one legal move (`board.legal_moves`, in the engine's
enumeration order).

Scores mix Python ints with `±math.inf`; they are modelled by
`Score := WithBot (WithTop ℤ)`, whose `⊥`/`⊤` play the roles of
`-math.inf`/`+math.inf`.
-/

namespace Brain

/-- Scores: integers extended with `-inf` (`⊥`) and `+inf` (`⊤`), modelling
Python ints mixed with `±math.inf`. -/
abbrev Score : Type := WithBot (WithTop ℤ)

/-- Embed an integer evaluation into `Score`. -/
def int2score (n : ℤ) : Score := ((n : WithTop ℤ) : Score)

/-- Oracle view of a position held by the rules engine: the value
`evaluate_board` returns there, the `is_game_over()` answer, and the
positions after each legal move (`board.legal_moves`, in the engine's
enumeration order). -/
inductive GTree : Type where
  | node (ev : ℤ) (over : Bool) (children : List GTree)

/-- The `evaluate_board` answer at this position. -/
def GTree.ev : GTree → ℤ
  | .node e _ _ => e

/-- The `is_game_over()` answer at this position. -/
def GTree.over : GTree → Bool
  | .node _ o _ => o

/-- The positions after each legal move (`board.legal_moves` order). -/
def GTree.children : GTree → List GTree
  | .node _ _ cs => cs

/-- The maximizing branch of `minimax`: `max_eval = -inf; for move in moves:
push; eval = rec(...); pop; max_eval = max(max_eval, eval);
alpha = max(alpha, eval); if beta <= alpha: break; return max_eval`.
`rec` is the recursive call at one less depth. -/
def maxLoop (rec : GTree → Score → Score → Score) (beta : Score) :
    List GTree → Score → Score → Score
  | [], _, best => best
  | c :: cs, alpha, best =>
    let ev := rec c alpha beta
    let best1 := max best ev
    let alpha1 := max alpha ev
    if beta ≤ alpha1 then best1 else maxLoop rec beta cs alpha1 best1

/-- The minimizing branch of `minimax`: `min_eval = +inf; ...;
min_eval = min(min_eval, eval); beta = min(beta, eval);
if beta <= alpha: break; return min_eval`. -/
def minLoop (rec : GTree → Score → Score → Score) (alpha : Score) :
    List GTree → Score → Score → Score
  | [], _, best => best
  | c :: cs, beta, best =>
    let ev := rec c alpha beta
    let best1 := min best ev
    let beta1 := min beta ev
    if beta1 ≤ alpha then best1 else minLoop rec alpha cs beta1 best1

/-- `minimax(board, depth, alpha, beta, maximizing)` from `brain.py`:
terminal when `depth == 0 or board.is_game_over()`, otherwise the
alpha-beta loop over `list(board.legal_moves)`. -/
def minimax (t : GTree) (depth : ℕ) (alpha beta : Score) (maximizing : Bool) :
    Score :=
  match depth with
  | 0 => int2score t.ev
  | d + 1 =>
    if t.over then int2score t.ev
    else if maximizing then
      maxLoop (fun c a b => minimax c d a b false) beta t.children alpha ⊥
    else
      minLoop (fun c a b => minimax c d a b true) alpha t.children beta ⊤

/-- Unpruned full-minimax fold for a maximizing node (spec §8:
"unpruned full minimax over the same tree"). -/
def fullMax (f : GTree → Score) : List GTree → Score
  | [] => ⊥
  | c :: cs => max (f c) (fullMax f cs)

/-- Unpruned full-minimax fold for a minimizing node. -/
def fullMin (f : GTree → Score) : List GTree → Score
  | [] => ⊤
  | c :: cs => min (f c) (fullMin f cs)

/-- Modelled from the spec's words ("the score returned by an unpruned full
minimax over the same tree with the same evaluator at the leaves"): plain
minimax with no alpha-beta window. -/
def fullMinimax (t : GTree) (depth : ℕ) (maximizing : Bool) : Score :=
  match depth with
  | 0 => int2score t.ev
  | d + 1 =>
    if t.over then int2score t.ev
    else if maximizing then
      fullMax (fun c => fullMinimax c d false) t.children
    else
      fullMin (fun c => fullMinimax c d true) t.children

/-- Rules-engine well-formedness: `is_game_over()` is reported whenever the
position has no legal moves (in chess, no legal moves means checkmate or
stalemate, both of which `board.is_game_over()` reports). -/
inductive WF : GTree → Prop where
  | mk : ∀ (ev : ℤ) (over : Bool) (cs : List GTree),
      (over = false → cs ≠ []) → (∀ c ∈ cs, WF c) → WF (.node ev over cs)

/-- The root loop of the request handler `get_move`:
`best_move = None; best_value = -inf;
for move in board.legal_moves: push; val = minimax(board, 2, -inf, inf, False);
pop; if val > best_value: best_value = val; best_move = move`.
Moves are identified by their index in the enumeration order. -/
def rootLoop : List GTree → ℕ → Score → Option ℕ → Option ℕ
  | [], _, _, best_move => best_move
  | c :: cs, i, best_value, best_move =>
    let val := minimax c 2 ⊥ ⊤ false
    if best_value < val then rootLoop cs (i + 1) val (some i)
    else rootLoop cs (i + 1) best_value best_move

/-- The move-selection core of the `get_move` request handler: the root loop
over the legal moves of the reconstructed board (children of the root), with
`None` standing for the "Game Over or No Move" error response. -/
def get_move (cs : List GTree) : Option ℕ :=
  rootLoop cs 0 ⊥ none

/-- A single legal move leading to a position scored `-9999` (the position
is over: the side to move was checkmated). -/
def mateLeaf : GTree := GTree.node (-9999) true []

/-- One mutation of the shared board. -/
inductive Op : Type where
  | push
  | pop

/-- Run a trace of stack operations against a stack of depth `n`; `none`
means a `pop` underflowed. -/
def runOps : List Op → ℕ → Option ℕ
  | [], n => some n
  | Op.push :: r, n => runOps r (n + 1)
  | Op.pop :: _, 0 => none
  | Op.pop :: r, n + 1 => runOps r n

/-- The shared mutable board: current position and undo stack. -/
def BoardState : Type := GTree × List GTree

/-- `board.push(move)`: descend into the position after the `i`-th legal
move, remembering the previous position on the undo stack. -/
def pushB (b : BoardState) (i : ℕ) : BoardState :=
  ((b.1.children).getD i (GTree.node 0 true []), b.1 :: b.2)

/-- `board.pop()`: restore the most recently pushed position. (Popping an
empty stack raises in Python; it never happens in these runs.) -/
def popB (b : BoardState) : BoardState :=
  match b.2 with
  | h :: t => (h, t)
  | [] => b

/-- Instrumented maximizing loop: for each move `push`, recurse, `pop`. -/
def maxLoopS (rec : BoardState → Score → Score → Score × BoardState × List Op)
    (beta : Score) :
    List ℕ → BoardState → Score → Score → Score × BoardState × List Op
  | [], b, _, best => (best, b, [])
  | i :: is, b, alpha, best =>
    let b1 := pushB b i
    let r := rec b1 alpha beta
    let b2 := popB r.2.1
    let best1 := max best r.1
    let alpha1 := max alpha r.1
    if beta ≤ alpha1 then (best1, b2, Op.push :: r.2.2 ++ [Op.pop])
    else
      let rest := maxLoopS rec beta is b2 alpha1 best1
      (rest.1, rest.2.1, Op.push :: r.2.2 ++ Op.pop :: rest.2.2)

/-- Instrumented minimizing loop. -/
def minLoopS (rec : BoardState → Score → Score → Score × BoardState × List Op)
    (alpha : Score) :
    List ℕ → BoardState → Score → Score → Score × BoardState × List Op
  | [], b, _, best => (best, b, [])
  | i :: is, b, beta, best =>
    let b1 := pushB b i
    let r := rec b1 alpha beta
    let b2 := popB r.2.1
    let best1 := min best r.1
    let beta1 := min beta r.1
    if beta1 ≤ alpha then (best1, b2, Op.push :: r.2.2 ++ [Op.pop])
    else
      let rest := minLoopS rec alpha is b2 beta1 best1
      (rest.1, rest.2.1, Op.push :: r.2.2 ++ Op.pop :: rest.2.2)

/-- Instrumented `minimax`: same control flow as `minimax`, threading the
shared board and recording every push/pop. -/
def minimaxS (b : BoardState) (depth : ℕ) (alpha beta : Score)
    (maximizing : Bool) : Score × BoardState × List Op :=
  match depth with
  | 0 => (int2score b.1.ev, b, [])
  | d + 1 =>
    if b.1.over then (int2score b.1.ev, b, [])
    else if maximizing then
      maxLoopS (fun b' a bb => minimaxS b' d a bb false) beta
        (List.range b.1.children.length) b alpha ⊥
    else
      minLoopS (fun b' a bb => minimaxS b' d a bb true) alpha
        (List.range b.1.children.length) b beta ⊤

/-- Instrumented root loop of `get_move`: for each root move `push`, run
`minimax(board, 2, -inf, +inf, False)`, `pop`, track the best move. -/
def rootLoopS :
    List ℕ → BoardState → Score → Option ℕ → Option ℕ × BoardState × List Op
  | [], b, _, bm => (bm, b, [])
  | i :: is, b, bv, bm =>
    let b1 := pushB b i
    let r := minimaxS b1 2 ⊥ ⊤ false
    let b2 := popB r.2.1
    if bv < r.1 then
      let rest := rootLoopS is b2 r.1 (some i)
      (rest.1, rest.2.1, Op.push :: r.2.2 ++ Op.pop :: rest.2.2)
    else
      let rest := rootLoopS is b2 bv bm
      (rest.1, rest.2.1, Op.push :: r.2.2 ++ Op.pop :: rest.2.2)

/-- Instrumented `get_move` core. -/
def get_moveS (b : BoardState) : Option ℕ × BoardState × List Op :=
  rootLoopS (List.range b.1.children.length) b ⊥ none

/-- python-chess piece types. -/
inductive PType : Type where
  | pawn
  | knight
  | bishop
  | rook
  | queen
  | king
deriving DecidableEq

/-- `values = {PAWN: 1, KNIGHT: 3, BISHOP: 3, ROOK: 5, QUEEN: 9, KING: 0}`. -/
def values : PType → ℤ
  | .pawn => 1
  | .knight => 3
  | .bishop => 3
  | .rook => 5
  | .queen => 9
  | .king => 0

/-- A piece: its type and its color (`true` = `chess.WHITE`). -/
structure Piece where
  piece_type : PType
  color : Bool
deriving DecidableEq

/-- The observations of a position that `evaluate_board` makes (plus
`is_stalemate`, which it never reads). `chess.WHITE = True`,
`chess.BLACK = False`; `chess.SQUARES = range(64)`. -/
structure EBoard where
  is_checkmate : Bool
  is_stalemate : Bool
  turn : Bool
  piece_at : Fin 64 → Option Piece

/-- `evaluate_board(board)` from `brain.py`: the checkmate sentinel keyed on
`board.turn` (`if board.turn: return -9999` with comment `# Black wins`,
`else: return 9999` with comment `# White wins`), otherwise the material
loop over `chess.SQUARES` subtracting white values and adding black ones. -/
def evaluate_board (b : EBoard) : ℤ :=
  if b.is_checkmate then
    if b.turn then -9999 else 9999
  else
    (List.finRange 64).foldl
      (fun evaluation square =>
        match b.piece_at square with
        | none => evaluation
        | some piece =>
          if piece.color then evaluation - values piece.piece_type
          else evaluation + values piece.piece_type)
      0

/-- Modelled from the spec's words: the signed material value of one square —
the fixed piece value added for the searching side's color (Black) and
subtracted for the opponent's (White), `0` for an empty square. -/
def matVal (b : EBoard) (square : Fin 64) : ℤ :=
  match b.piece_at square with
  | none => 0
  | some piece =>
    if piece.color then -(values piece.piece_type) else values piece.piece_type

/-- A stalemate position: White king a1, Black queen c2, Black king c4,
White to move and no legal move, not checkmate. Material: Black up a queen. -/
def stalemateBoard : EBoard where
  is_checkmate := false
  is_stalemate := true
  turn := true
  piece_at := fun square =>
    if square.val = 0 then some ⟨.king, true⟩
    else if square.val = 10 then some ⟨.queen, false⟩
    else if square.val = 26 then some ⟨.king, false⟩
    else none

/-- The position after 1.f3 e5 2.g4 Qh4# (fool's mate): White to move and
checkmated; Black has just won. Squares are `file + 8*rank`, 0-based. -/
def foolsMatePieces : List (ℕ × Piece) :=
  [(0, ⟨.rook, true⟩), (1, ⟨.knight, true⟩), (2, ⟨.bishop, true⟩),
   (3, ⟨.queen, true⟩), (4, ⟨.king, true⟩), (5, ⟨.bishop, true⟩),
   (6, ⟨.knight, true⟩), (7, ⟨.rook, true⟩),
   (8, ⟨.pawn, true⟩), (9, ⟨.pawn, true⟩), (10, ⟨.pawn, true⟩),
   (11, ⟨.pawn, true⟩), (12, ⟨.pawn, true⟩), (15, ⟨.pawn, true⟩),
   (21, ⟨.pawn, true⟩), (30, ⟨.pawn, true⟩),
   (48, ⟨.pawn, false⟩), (49, ⟨.pawn, false⟩), (50, ⟨.pawn, false⟩),
   (51, ⟨.pawn, false⟩), (53, ⟨.pawn, false⟩), (54, ⟨.pawn, false⟩),
   (55, ⟨.pawn, false⟩), (36, ⟨.pawn, false⟩), (31, ⟨.queen, false⟩),
   (56, ⟨.rook, false⟩), (57, ⟨.knight, false⟩), (58, ⟨.bishop, false⟩),
   (60, ⟨.king, false⟩), (61, ⟨.bishop, false⟩), (62, ⟨.knight, false⟩),
   (63, ⟨.rook, false⟩)]

def foolsMateBoard : EBoard where
  is_checkmate := true
  is_stalemate := false
  turn := true
  piece_at := fun square =>
    (foolsMatePieces.find? (fun p => p.1 == square.val)).map (·.2)

/-- Python `s.split(sep)` for a one-character separator. -/
def splitOnChar (sep : Char) : List Char → List (List Char)
  | [] => [[]]
  | c :: cs =>
    let r := splitOnChar sep cs
    if c = sep then [] :: r
    else
      match r with
      | h :: t => (c :: h) :: t
      | [] => [[c]]

def parseDigitsGo : List Char → ℕ → Option ℕ
  | [], acc => some acc
  | c :: cs, acc =>
    if c.isDigit then parseDigitsGo cs (acc * 10 + (c.toNat - 48)) else none

def parseDigits : List Char → Option ℕ
  | [] => none
  | cs => parseDigitsGo cs 0

/-- Python `int(...)` on a decimal string with an optional sign. (`int` also
tolerates surrounding whitespace and underscores between digits; no input
relevant here contains those.) -/
def parseInt : List Char → Option ℤ
  | '-' :: rest => (parseDigits rest).map (fun n => -(n : ℤ))
  | '+' :: rest => (parseDigits rest).map (fun n => (n : ℤ))
  | cs => (parseDigits cs).map (fun n => (n : ℤ))

/-- Python `chr(n)`: raises outside `[0, 0x110000)`. (Python additionally
accepts surrogate code points which Lean's `Char` cannot carry; no input
relevant here reaches them.) -/
def pyChr (n : ℤ) : Option Char :=
  if 0 ≤ n ∧ n < 1114112 then some (Char.ofNat n.toNat) else none

def digitChar (n : ℕ) : Char := Char.ofNat (48 + n)

def natReprGo : ℕ → ℕ → List Char
  | 0, _ => []
  | fuel + 1, n =>
    if n < 10 then [digitChar n]
    else natReprGo fuel (n / 10) ++ [digitChar (n % 10)]

/-- Decimal representation of a natural number (Python `str` of an `int`). -/
def natRepr (n : ℕ) : List Char := natReprGo (n + 1) n

/-- Python `str` of an `int`. -/
def intRepr (i : ℤ) : List Char :=
  if i < 0 then '-' :: natRepr i.natAbs else natRepr i.toNat

/-- `map_to_algebraic(pos)` from `brain.py`:
`x, y = map(int, pos.split('_')); col = chr(96 + x); return f"{col}{y}"`. -/
def map_to_algebraic (pos : String) : Option String :=
  match splitOnChar '_' pos.data with
  | [xs, ys] =>
    match parseInt xs, parseInt ys with
    | some x, some y =>
      match pyChr (96 + x) with
      | some col => some (String.mk (col :: intRepr y))
      | none => none
    | _, _ => none
  | _ => none

/-- `map_from_algebraic(square_name)` from `brain.py`:
`col_char = square_name[0]; row_char = square_name[1];
x = ord(col_char) - 96; y = int(row_char); return f"{x}_{y}"`.
(Characters past the second are ignored, exactly as in the source.) -/
def map_from_algebraic (square_name : String) : Option String :=
  match square_name.data with
  | col_char :: row_char :: _ =>
    match parseInt [row_char] with
    | some y =>
      some (String.mk (intRepr ((col_char.toNat : ℤ) - 96) ++ '_' :: intRepr y))
    | none => none
  | _ => none

/-- One PieceRecord of the external inventory. -/
structure PieceRec where
  type : String
  position : String
  captured : Bool
  moved : Bool
deriving DecidableEq

/-- The piece inventory (`pieces_data`), in dict insertion order. -/
abbrev Inv : Type := List (String × PieceRec)

/-- Python exceptions reachable in `reconstruct_board`. -/
inductive PyErr : Type where
  | keyError (key : String)
  | valueError
  | indexError
deriving DecidableEq

/-- Dict lookup `pieces_data[key]` as an `Option`. -/
def lookupRec (inv : Inv) (key : String) : Option PieceRec :=
  (inv.find? (fun p => p.1 == key)).map (·.2)

/-- The `moved` field of the record at `key`, when present. -/
def movedOf (inv : Inv) (key : String) : Option Bool :=
  (lookupRec inv key).map (·.moved)

/-- `pieces_data[key]['moved']`: `KeyError` when the record is absent. -/
def getMoved (inv : Inv) (key : String) : Except PyErr Bool :=
  match movedOf inv key with
  | some m => .ok m
  | none => .error (.keyError key)

/-- `type_map` from `brain.py`. -/
def type_map : String → Option PType
  | "king" => some .king
  | "queen" => some .queen
  | "rook" => some .rook
  | "bishop" => some .bishop
  | "knight" => some .knight
  | "pawn" => some .pawn
  | _ => none

/-- `s.startswith(p)`. -/
def startsW : List Char → List Char → Bool
  | [], _ => true
  | _ :: _, [] => false
  | p :: ps, c :: cs => p == c && startsW ps cs

/-- `piece['type'].split('_')[1]`: `IndexError` when there is no second
part. -/
def typeSplit1 (t : String) : Option String :=
  match splitOnChar '_' t.data with
  | _ :: snd :: _ => some (String.mk snd)
  | _ => none

/-- `chess.parse_square(name)`: the index of `name` in `SQUARE_NAMES`
(`a1 = 0, ..., h8 = 63`), `ValueError` otherwise. -/
def parse_square (name : String) : Option (Fin 64) :=
  match name.data with
  | [c, d] =>
    let cn := c.toNat
    let dn := d.toNat
    if h : 97 ≤ cn ∧ cn ≤ 104 ∧ 49 ≤ dn ∧ dn ≤ 56 then
      some ⟨(cn - 97) + 8 * (dn - 49), by omega⟩
    else none
  | _ => none

/-- The piece-placement loop of `reconstruct_board`: for every non-captured
record, derive color from the `w_`-prefix of its type, its piece kind from
the part after `_`, its square from `map_to_algebraic` then `parse_square`,
and `set_piece_at` (which silently overwrites any previous occupant). -/
def placePieces : Inv → (Fin 64 → Option Piece) → Except PyErr (Fin 64 → Option Piece)
  | [], board => .ok board
  | (_, piece) :: rest, board =>
    if piece.captured then placePieces rest board
    else
      let color := startsW ['w', '_'] piece.type.data
      match typeSplit1 piece.type with
      | none => .error .indexError
      | some p_type =>
        match map_to_algebraic piece.position with
        | none => .error .valueError
        | some alg_pos =>
          match parse_square alg_pos with
          | none => .error .valueError
          | some square =>
            match type_map p_type with
            | none => .error (.keyError p_type)
            | some pt =>
              placePieces rest
                (fun s => if s = square then some ⟨pt, color⟩ else board s)

/-- python-chess castling bitboard squares. -/
def BB_A1 : ℕ := 1

def BB_H1 : ℕ := 2 ^ 7

def BB_A8 : ℕ := 2 ^ 56

def BB_H8 : ℕ := 2 ^ 63

/-- The black half of the castling-rights block:
`if not pieces_data['b_king']['moved']:
   if not pieces_data['b_rook2']['moved']: castling_rights |= BB_H8
   if not pieces_data['b_rook1']['moved']: castling_rights |= BB_A8`. -/
def blackC (inv : Inv) (c : ℕ) : Except PyErr ℕ :=
  match getMoved inv "b_king" with
  | .error e => .error e
  | .ok true => .ok c
  | .ok false =>
    match getMoved inv "b_rook2" with
    | .error e => .error e
    | .ok br2 =>
      let c1 := if br2 then c else c ||| BB_H8
      match getMoved inv "b_rook1" with
      | .error e => .error e
      | .ok br1 => .ok (if br1 then c1 else c1 ||| BB_A8)

/-- The castling-rights derivation of `reconstruct_board`, starting from
`board.castling_rights = 0`: white block then black block. -/
def computeCastling (inv : Inv) : Except PyErr ℕ :=
  match getMoved inv "w_king" with
  | .error e => .error e
  | .ok true => blackC inv 0
  | .ok false =>
    match getMoved inv "w_rook2" with
    | .error e => .error e
    | .ok wr2 =>
      let c1 := if wr2 then 0 else 0 ||| BB_H1
      match getMoved inv "w_rook1" with
      | .error e => .error e
      | .ok wr1 => blackC inv (if wr1 then c1 else c1 ||| BB_A1)

/-- The rules-engine `Position` built by `reconstruct_board`. -/
structure RBoard where
  piece_at : Fin 64 → Option Piece
  castling_rights : ℕ
  turn : Bool

/-- `reconstruct_board(pieces_data)` from `brain.py`: place every
non-captured record on an empty board, derive castling rights from the
`moved` flags, set the side to move to Black (`board.turn = chess.BLACK`,
and `chess.BLACK = False`). -/
def reconstruct_board (inv : Inv) : Except PyErr RBoard :=
  match placePieces inv (fun _ => none) with
  | .error e => .error e
  | .ok board =>
    match computeCastling inv with
    | .error e => .error e
    | .ok c => .ok ⟨board, c, false⟩

/-- Extract the successfully built board (meaningful only when
`reconstruct_board` succeeds). -/
def builtBoard (inv : Inv) : RBoard :=
  match reconstruct_board inv with
  | .ok b => b
  | .error _ => ⟨fun _ => none, 0, false⟩

/-- The claim C4 inventory: white king and white king-side rook unmoved,
every other king/rook moved. -/
def c4Inv : Inv :=
  [("w_king", ⟨"w_king", "5_1", false, false⟩),
   ("w_rook1", ⟨"w_rook", "1_1", false, true⟩),
   ("w_rook2", ⟨"w_rook", "8_1", false, false⟩),
   ("b_king", ⟨"b_king", "5_8", false, true⟩),
   ("b_rook1", ⟨"b_rook", "1_8", false, true⟩),
   ("b_rook2", ⟨"b_rook", "8_8", false, true⟩)]

/-- Two non-captured records (a white queen and a black knight) both mapped
to square `"4_4"` (d4, square 27), plus the six named king/rook records. -/
def dupInv : Inv :=
  [("w_king", ⟨"w_king", "5_1", false, true⟩),
   ("w_rook1", ⟨"w_rook", "1_1", false, true⟩),
   ("w_rook2", ⟨"w_rook", "8_1", false, true⟩),
   ("b_king", ⟨"b_king", "5_8", false, true⟩),
   ("b_rook1", ⟨"b_rook", "1_8", false, true⟩),
   ("b_rook2", ⟨"b_rook", "8_8", false, true⟩),
   ("extra1", ⟨"w_queen", "4_4", false, true⟩),
   ("extra2", ⟨"b_knight", "4_4", false, true⟩)]

/-- The six named records with the white king unmoved and the white
king-side rook captured but unmoved; all other kings/rooks moved. -/
def capturedRookInv : Inv :=
  [("w_king", ⟨"w_king", "5_1", false, false⟩),
   ("w_rook1", ⟨"w_rook", "1_1", false, true⟩),
   ("w_rook2", ⟨"w_rook", "8_1", true, false⟩),
   ("b_king", ⟨"b_king", "5_8", false, true⟩),
   ("b_rook1", ⟨"b_rook", "1_8", false, true⟩),
   ("b_rook2", ⟨"b_rook", "8_8", false, true⟩)]

/-- The same inventory with an extra (unrelated) pawn record appended. -/
def capturedRookInv2 : Inv :=
  capturedRookInv ++ [("extra", ⟨"w_pawn", "4_4", false, true⟩)]

/-- The square a record's `position` maps to in the placement loop:
`parse_square(map_to_algebraic(piece['position']))`. -/
def recSquare (r : PieceRec) : Option (Fin 64) :=
  (map_to_algebraic r.position).bind parse_square

/-- The piece a record places: `chess.Piece(type_map[p_type], color)` with
`p_type = piece['type'].split('_')[1]` and the `w_`-prefix color test. -/
def recPieceOf (r : PieceRec) : Option Piece :=
  (typeSplit1 r.type).bind
    (fun p_type => (type_map p_type).map
      (fun kind => ⟨kind, startsW ['w', '_'] r.type.data⟩))

/-- The white half of the castling derivation completes without a KeyError:
the white king record is present and moved, or it is present and unmoved
and both white rook records are present (they are then both read). -/
def whiteReadsOk (inv : Inv) : Prop :=
  movedOf inv "w_king" = some true ∨
    (movedOf inv "w_king" = some false ∧
      (∃ r, lookupRec inv "w_rook2" = some r) ∧
      (∃ r, lookupRec inv "w_rook1" = some r))

/-- Extract the placement-loop result (meaningful only when it succeeds). -/
def placedOf (inv : Inv) : Fin 64 → Option Piece :=
  match placePieces inv (fun _ => none) with
  | .ok b => b
  | .error _ => fun _ => none

/-- An inventory whose white king is present and unmoved but whose white
king-side rook record is missing. -/
def missingRookInv : Inv := [("w_king", ⟨"w_king", "5_1", false, false⟩)]

theorem maxLoop_decomp (rec : GTree → Score → Score → Score) (beta : Score) :
    ∀ (cs : List GTree) (alpha best : Score),
      maxLoop rec beta cs alpha best = max best (maxLoop rec beta cs alpha ⊥) := by
  intro cs
  induction cs with
  | nil => intro alpha best; simp [maxLoop]
  | cons c cs ih =>
    intro alpha best
    simp only [maxLoop]
    by_cases h : beta ≤ max alpha (rec c alpha beta)
    · simp [h, max_comm, max_assoc, max_left_comm]
    · simp only [if_neg h]
      rw [ih _ (max best (rec c alpha beta)), ih _ (max ⊥ (rec c alpha beta))]
      simp [max_comm, max_assoc, max_left_comm]

theorem minLoop_decomp (rec : GTree → Score → Score → Score) (alpha : Score) :
    ∀ (cs : List GTree) (beta best : Score),
      minLoop rec alpha cs beta best = min best (minLoop rec alpha cs beta ⊤) := by
  intro cs
  induction cs with
  | nil => intro beta best; simp [minLoop]
  | cons c cs ih =>
    intro beta best
    simp only [minLoop]
    by_cases h : min beta (rec c alpha beta) ≤ alpha
    · simp [h, min_comm, min_assoc, min_left_comm]
    · simp only [if_neg h]
      rw [ih _ (min best (rec c alpha beta)), ih _ (min ⊤ (rec c alpha beta))]
      simp [min_comm, min_assoc, min_left_comm]

/-- Knuth–Moore fail-soft invariant for the maximizing loop, generically in
the recursive call `rec` and its true value `f`. -/
theorem maxLoop_bounds (rec : GTree → Score → Score → Score) (f : GTree → Score)
    (H : ∀ c alpha beta, alpha < beta →
      (alpha < rec c alpha beta → rec c alpha beta ≤ f c) ∧
      (rec c alpha beta < beta → f c ≤ rec c alpha beta)) :
    ∀ (cs : List GTree) (alpha beta : Score), alpha < beta →
      (alpha < maxLoop rec beta cs alpha ⊥ → maxLoop rec beta cs alpha ⊥ ≤ fullMax f cs) ∧
      (maxLoop rec beta cs alpha ⊥ < beta → fullMax f cs ≤ maxLoop rec beta cs alpha ⊥) := by
  intro cs
  induction cs with
  | nil =>
    intro alpha beta hab
    constructor
    · intro h; exact absurd h (by simp [maxLoop, fullMax])
    · intro _; simp [maxLoop, fullMax]
  | cons c cs ih =>
    intro alpha beta hab
    simp only [maxLoop, fullMax]
    set ev := rec c alpha beta with hev
    have Hc := H c alpha beta hab
    by_cases hcut : beta ≤ max alpha ev
    · -- cutoff: beta ≤ max alpha ev, and alpha < beta, so beta ≤ ev
      have hbe : beta ≤ ev := by
        rcases max_cases alpha ev with ⟨h1, _⟩ | ⟨h1, _⟩
        · exact absurd (lt_of_lt_of_le hab (h1 ▸ hcut)) (lt_irrefl alpha)
        · exact h1 ▸ hcut
      have hef : ev ≤ f c := Hc.1 (lt_of_lt_of_le hab hbe)
      simp only [if_pos hcut]
      constructor
      · intro _
        calc max ⊥ ev = ev := by simp
          _ ≤ f c := hef
          _ ≤ max (f c) (fullMax f cs) := le_max_left _ _
      · intro hlt
        exact absurd (lt_of_le_of_lt (le_trans hbe (by simp : ev ≤ max ⊥ ev)) hlt)
          (lt_irrefl beta)
    · -- no cutoff
      simp only [if_neg hcut]
      have hab1 : max alpha ev < beta := lt_of_not_le hcut
      have heb : ev < beta := lt_of_le_of_lt (le_max_right alpha ev) hab1
      have hfe : f c ≤ ev := Hc.2 heb
      have ihl := ih (max alpha ev) beta hab1
      rw [maxLoop_decomp rec beta cs (max alpha ev) (max ⊥ ev)]
      set M := maxLoop rec beta cs (max alpha ev) ⊥ with hM
      have hbotev : (max ⊥ ev) = ev := by simp
      rw [hbotev]
      constructor
      · intro hlt
        -- alpha < max ev M; show max ev M ≤ max (f c) (fullMax f cs)
        rcases le_total M ev with hMe | heM
        · rw [max_eq_left hMe] at hlt ⊢
          exact le_trans (Hc.1 hlt) (le_max_left _ _)
        · rw [max_eq_right heM] at hlt ⊢
          rcases lt_or_le ev M with hevM | hMev
          · have haM : max alpha ev < M := max_lt hlt hevM
            exact le_trans (ihl.1 haM) (le_max_right _ _)
          · have hMe : M = ev := le_antisymm hMev heM
            have hae : alpha < ev := lt_of_lt_of_le hlt (le_of_eq hMe)
            rw [hMe]
            exact le_trans (Hc.1 hae) (le_max_left _ _)
      · intro hlt
        -- max ev M < beta; show max (f c) (fullMax f cs) ≤ max ev M
        have hMb : M < beta := lt_of_le_of_lt (le_max_right ev M) hlt
        have h1 : f c ≤ max ev M := le_trans hfe (le_max_left _ _)
        have h2 : fullMax f cs ≤ max ev M := le_trans (ihl.2 hMb) (le_max_right _ _)
        exact max_le h1 h2

/-- Knuth–Moore fail-soft invariant for the minimizing loop. -/
theorem minLoop_bounds (rec : GTree → Score → Score → Score) (f : GTree → Score)
    (H : ∀ c alpha beta, alpha < beta →
      (alpha < rec c alpha beta → rec c alpha beta ≤ f c) ∧
      (rec c alpha beta < beta → f c ≤ rec c alpha beta)) :
    ∀ (cs : List GTree) (alpha beta : Score), alpha < beta →
      (alpha < minLoop rec alpha cs beta ⊤ → minLoop rec alpha cs beta ⊤ ≤ fullMin f cs) ∧
      (minLoop rec alpha cs beta ⊤ < beta → fullMin f cs ≤ minLoop rec alpha cs beta ⊤) := by
  intro cs
  induction cs with
  | nil =>
    intro alpha beta hab
    constructor
    · intro _; simp [minLoop, fullMin]
    · intro h; exact absurd h (by simp [minLoop, fullMin])
  | cons c cs ih =>
    intro alpha beta hab
    simp only [minLoop, fullMin]
    set ev := rec c alpha beta with hev
    have Hc := H c alpha beta hab
    by_cases hcut : min beta ev ≤ alpha
    · -- cutoff: min beta ev ≤ alpha < beta, so ev ≤ alpha
      have hea : ev ≤ alpha := by
        rcases min_cases beta ev with ⟨h1, _⟩ | ⟨h1, _⟩
        · exact absurd (lt_of_le_of_lt (h1 ▸ hcut) hab) (lt_irrefl beta)
        · exact h1 ▸ hcut
      have hfe : f c ≤ ev := Hc.2 (lt_of_le_of_lt hea hab)
      simp only [if_pos hcut]
      constructor
      · intro hlt
        exact absurd (lt_of_lt_of_le hlt (le_trans (by simp : min ⊤ ev ≤ ev) hea))
          (lt_irrefl alpha)
      · intro _
        calc min (f c) (fullMin f cs) ≤ f c := min_le_left _ _
          _ ≤ ev := hfe
          _ = min ⊤ ev := by simp
    · -- no cutoff
      simp only [if_neg hcut]
      have hab1 : alpha < min beta ev := lt_of_not_le hcut
      have hae : alpha < ev := lt_of_lt_of_le hab1 (min_le_right beta ev)
      have hef : ev ≤ f c := Hc.1 hae
      have ihl := ih alpha (min beta ev) hab1
      rw [minLoop_decomp rec alpha cs (min beta ev) (min ⊤ ev)]
      set M := minLoop rec alpha cs (min beta ev) ⊤ with hM
      have htopev : (min ⊤ ev) = ev := by simp
      rw [htopev]
      constructor
      · intro hlt
        -- alpha < min ev M; show min ev M ≤ min (f c) (fullMin f cs)
        have haM : alpha < M := lt_of_lt_of_le hlt (min_le_right ev M)
        have h1 : min ev M ≤ f c := le_trans (min_le_left _ _) hef
        have h2 : min ev M ≤ fullMin f cs := le_trans (min_le_right _ _) (ihl.1 haM)
        exact le_min h1 h2
      · intro hlt
        -- min ev M < beta; show min (f c) (fullMin f cs) ≤ min ev M
        rcases le_total ev M with heM | hMe
        · rw [min_eq_left heM] at hlt ⊢
          exact le_trans (min_le_left _ _) (Hc.2 hlt)
        · rw [min_eq_right hMe] at hlt ⊢
          rcases lt_or_le M ev with hMev | hevM
          · have hMb : M < min beta ev := lt_min hlt hMev
            exact le_trans (min_le_right _ _) (ihl.2 hMb)
          · have hMev2 : M = ev := le_antisymm hMe hevM
            have heb : ev < beta := lt_of_le_of_lt (le_of_eq hMev2.symm) hlt
            rw [hMev2]
            exact le_trans (min_le_left _ _) (Hc.2 heb)

theorem minimax_bounds :
    ∀ (depth : ℕ) (t : GTree) (alpha beta : Score) (maximizing : Bool),
      alpha < beta →
      (alpha < minimax t depth alpha beta maximizing →
        minimax t depth alpha beta maximizing ≤ fullMinimax t depth maximizing) ∧
      (minimax t depth alpha beta maximizing < beta →
        fullMinimax t depth maximizing ≤ minimax t depth alpha beta maximizing) := by
  intro depth
  induction depth with
  | zero =>
    intro t alpha beta maximizing _
    constructor
    · intro _; exact le_refl _
    · intro _; exact le_refl _
  | succ d ih =>
    intro t alpha beta maximizing hab
    by_cases hover : t.over
    · simp only [minimax, fullMinimax, if_pos hover]
      constructor
      · intro _; exact le_refl _
      · intro _; exact le_refl _
    · cases maximizing with
      | true =>
        simp only [minimax, fullMinimax, if_neg hover, if_pos rfl]
        exact maxLoop_bounds (fun c a b => minimax c d a b false)
          (fun c => fullMinimax c d false)
          (fun c a b h => ih c a b false h) t.children alpha beta hab
      | false =>
        simp only [minimax, fullMinimax, if_neg hover, Bool.false_eq_true,
          if_false]
        exact minLoop_bounds (fun c a b => minimax c d a b true)
          (fun c => fullMinimax c d true)
          (fun c a b h => ih c a b true h) t.children alpha beta hab

/-- C2: For every position and every depth, the alpha-beta `minimax` called
with the full window `alpha = -inf`, `beta = +inf` returns the same score as
the unpruned full minimax over the same game tree with the same evaluator at
the leaves. -/
theorem alphabeta_eq_fullMinimax (t : GTree) (depth : ℕ) (maximizing : Bool) :
    minimax t depth ⊥ ⊤ maximizing = fullMinimax t depth maximizing := by
  have hbt : (⊥ : Score) < ⊤ := by
    show (⊥ : Score) < ((⊤ : WithTop ℤ) : Score)
    exact WithBot.bot_lt_coe _
  have h := minimax_bounds depth t ⊥ ⊤ maximizing hbt
  set r := minimax t depth ⊥ ⊤ maximizing with hr
  set v := fullMinimax t depth maximizing with hv
  rcases eq_or_lt_of_le (bot_le : (⊥ : Score) ≤ r) with hbot | hgt
  · -- r = ⊥ : then v ≤ r, so v = ⊥ = r
    have hrt : r < ⊤ := by rw [← hbot]; exact hbt
    have hrv : r ≤ v := by rw [← hbot]; exact bot_le
    exact le_antisymm hrv (h.2 hrt)
  · rcases eq_or_lt_of_le (le_top : r ≤ (⊤ : Score)) with htop | hlt
    · -- r = ⊤ : then r ≤ v, so v = ⊤ = r
      have hvr : v ≤ r := by rw [htop]; exact le_top
      exact le_antisymm (h.1 hgt) hvr
    · exact le_antisymm (h.1 hgt) (h.2 hlt)

theorem WF.inv {ev : ℤ} {over : Bool} {cs : List GTree}
    (h : WF (.node ev over cs)) :
    (over = false → cs ≠ []) ∧ (∀ c ∈ cs, WF c) := by
  cases h with
  | mk _ _ _ h1 h2 => exact ⟨h1, h2⟩

theorem maxLoop_best_le (rec : GTree → Score → Score → Score) (beta : Score) :
    ∀ (cs : List GTree) (alpha best : Score),
      best ≤ maxLoop rec beta cs alpha best := by
  intro cs
  induction cs with
  | nil => intro alpha best; simp [maxLoop]
  | cons c cs ih =>
    intro alpha best
    simp only [maxLoop]
    by_cases h : beta ≤ max alpha (rec c alpha beta)
    · simp [h]
    · simp only [if_neg h]
      exact le_trans (le_max_left best (rec c alpha beta)) (ih _ _)

theorem bot_lt_minLoop (rec : GTree → Score → Score → Score) (alpha : Score) :
    ∀ (cs : List GTree) (beta best : Score),
      (∀ c ∈ cs, ∀ a b : Score, ⊥ < rec c a b) → ⊥ < best →
      ⊥ < minLoop rec alpha cs beta best := by
  intro cs
  induction cs with
  | nil => intro beta best _ hb; simpa [minLoop] using hb
  | cons c cs ih =>
    intro beta best hrec hb
    simp only [minLoop]
    have hev : ⊥ < rec c alpha beta := hrec c (List.mem_cons_self c cs) alpha beta
    by_cases h : min beta (rec c alpha beta) ≤ alpha
    · simp only [if_pos h]
      exact lt_min hb hev
    · simp only [if_neg h]
      exact ih _ _ (fun d hd a b => hrec d (List.mem_cons_of_mem c hd) a b)
        (lt_min hb hev)

/-- A well-formed position never scores `-inf`: `evaluate_board` always
returns an integer, and a non-terminal position always has a move. -/
theorem bot_lt_minimax :
    ∀ (depth : ℕ) (t : GTree) (alpha beta : Score) (maximizing : Bool),
      WF t → ⊥ < minimax t depth alpha beta maximizing := by
  intro depth
  induction depth with
  | zero =>
    intro t alpha beta maximizing _
    exact WithBot.bot_lt_coe _
  | succ d ih =>
    intro t alpha beta maximizing hwf
    cases t with
    | node ev over cs =>
      rcases hwf.inv with ⟨hne, hmem⟩
      by_cases hover : GTree.over (.node ev over cs)
      · simp only [minimax, if_pos hover]
        exact WithBot.bot_lt_coe _
      · simp only [minimax, if_neg hover]
        have hcs : cs ≠ [] := hne (by simpa [GTree.over] using hover)
        cases maximizing with
        | true =>
          simp only [if_pos rfl]
          cases cs with
          | nil => exact absurd rfl hcs
          | cons c cs' =>
            simp only [GTree.children, maxLoop]
            have hev : ⊥ < minimax c d alpha beta false :=
              ih c alpha beta false (hmem c (List.mem_cons_self c cs'))
            by_cases hcut : beta ≤ max alpha (minimax c d alpha beta false)
            · simp only [if_pos hcut]
              simpa using hev
            · simp only [if_neg hcut]
              calc (⊥ : Score) < max ⊥ (minimax c d alpha beta false) := by
                    simpa using hev
                _ ≤ _ := maxLoop_best_le _ _ _ _ _
        | false =>
          simp only [Bool.false_eq_true, if_false]
          exact bot_lt_minLoop _ _ (GTree.children (.node ev over cs)) beta ⊤
            (fun c hc a b => ih c a b true (hmem c (by simpa [GTree.children] using hc)))
            (by simp)

theorem rootLoop_some :
    ∀ (cs : List GTree) (i j : ℕ) (bv : Score),
      rootLoop cs i bv (some j) ≠ none := by
  intro cs
  induction cs with
  | nil => intro i j bv; simp [rootLoop]
  | cons c cs ih =>
    intro i j bv
    simp only [rootLoop]
    by_cases h : bv < minimax c 2 ⊥ ⊤ false
    · simp only [if_pos h]; exact ih _ _ _
    · simp only [if_neg h]; exact ih _ _ _

/-- C3: the root search returns a move iff the position has at least one
legal move; with exactly one legal move it returns that move (index 0)
regardless of its score; with zero legal moves it returns the game-over /
no-move response (`none`), never a move. -/
theorem get_move_iff_legal_moves (cs : List GTree) (hwf : ∀ c ∈ cs, WF c) :
    (get_move cs = none ↔ cs = []) ∧
    (∀ c : GTree, cs = [c] → get_move cs = some 0) := by
  constructor
  · cases cs with
    | nil => simp [get_move, rootLoop]
    | cons c cs' =>
      constructor
      · intro h
        exfalso
        have hval : (⊥ : Score) < minimax c 2 ⊥ ⊤ false :=
          bot_lt_minimax 2 c ⊥ ⊤ false (hwf c (List.mem_cons_self c cs'))
        have : get_move (c :: cs') = rootLoop cs' 1 (minimax c 2 ⊥ ⊤ false) (some 0) := by
          simp only [get_move, rootLoop, if_pos hval]
        rw [this] at h
        exact rootLoop_some cs' 1 0 _ h
      · intro h; exact absurd h (List.cons_ne_nil c cs')
  · intro c hc
    subst hc
    have hval : (⊥ : Score) < minimax c 2 ⊥ ⊤ false :=
      bot_lt_minimax 2 c ⊥ ⊤ false (hwf c (List.mem_cons_self c []))
    simp only [get_move, rootLoop, if_pos hval]

theorem mateLeaf_wf : WF mateLeaf :=
  WF.mk (-9999) true [] (fun h => Bool.noConfusion h)
    (fun c hc => absurd hc (List.not_mem_nil c))

theorem get_move_iff_legal_moves_witness :
    get_move [mateLeaf] = some 0 ∧ get_move [] = none := by
  have hwf : ∀ c ∈ [mateLeaf], WF c := by
    intro c hc
    rw [List.mem_singleton] at hc
    rw [hc]
    exact mateLeaf_wf
  refine ⟨(get_move_iff_legal_moves [mateLeaf] hwf).2 mateLeaf rfl, ?_⟩
  exact (get_move_iff_legal_moves [] (fun c hc => absurd hc (List.not_mem_nil c))).1.mpr rfl

theorem runOps_append :
    ∀ (l1 l2 : List Op) (n m : ℕ), runOps l1 n = some m →
      runOps (l1 ++ l2) n = runOps l2 m := by
  intro l1
  induction l1 with
  | nil =>
    intro l2 n m h
    simp only [runOps, Option.some.injEq] at h
    rw [← h]
    rfl
  | cons o r ih =>
    intro l2 n m h
    cases o with
    | push => exact ih l2 (n + 1) m h
    | pop =>
      cases n with
      | zero => exact absurd h (by simp [runOps])
      | succ n => exact ih l2 n m h

theorem push_pop_state (b : BoardState) (i : ℕ) : popB (pushB b i) = b := by
  cases b with
  | mk cur stk => rfl

theorem maxLoopS_frame
    (rec : BoardState → Score → Score → Score × BoardState × List Op)
    (beta : Score)
    (Hrec : ∀ (b : BoardState) (a bb : Score),
      (rec b a bb).2.1 = b ∧ ∀ n, runOps (rec b a bb).2.2 n = some n) :
    ∀ (is : List ℕ) (b : BoardState) (alpha best : Score),
      (maxLoopS rec beta is b alpha best).2.1 = b ∧
      ∀ n, runOps (maxLoopS rec beta is b alpha best).2.2 n = some n := by
  intro is
  induction is with
  | nil => intro b alpha best; exact ⟨rfl, fun n => rfl⟩
  | cons i is ih =>
    intro b alpha best
    simp only [maxLoopS]
    have hst : popB (rec (pushB b i) alpha beta).2.1 = b := by
      rw [(Hrec (pushB b i) alpha beta).1]
      exact push_pop_state b i
    have htr : ∀ n, runOps (rec (pushB b i) alpha beta).2.2 n = some n :=
      (Hrec (pushB b i) alpha beta).2
    by_cases hcut : beta ≤ max alpha (rec (pushB b i) alpha beta).1
    · simp only [if_pos hcut]
      refine ⟨hst, fun n => ?_⟩
      show runOps (Op.push :: ((rec (pushB b i) alpha beta).2.2 ++ [Op.pop])) n = some n
      have h1 : runOps ((rec (pushB b i) alpha beta).2.2 ++ [Op.pop]) (n + 1) =
          runOps [Op.pop] (n + 1) :=
        runOps_append _ _ (n + 1) (n + 1) (htr (n + 1))
      show runOps ((rec (pushB b i) alpha beta).2.2 ++ [Op.pop]) (n + 1) = some n
      rw [h1]
      rfl
    · simp only [if_neg hcut]
      rw [hst]
      have ihr := ih b (max alpha (rec (pushB b i) alpha beta).1)
        (max best (rec (pushB b i) alpha beta).1)
      refine ⟨ihr.1, fun n => ?_⟩
      show runOps (Op.push :: ((rec (pushB b i) alpha beta).2.2 ++
        Op.pop :: (maxLoopS rec beta is b (max alpha (rec (pushB b i) alpha beta).1)
          (max best (rec (pushB b i) alpha beta).1)).2.2)) n = some n
      show runOps ((rec (pushB b i) alpha beta).2.2 ++
        Op.pop :: (maxLoopS rec beta is b (max alpha (rec (pushB b i) alpha beta).1)
          (max best (rec (pushB b i) alpha beta).1)).2.2) (n + 1) = some n
      rw [runOps_append _ _ (n + 1) (n + 1) (htr (n + 1))]
      show runOps (maxLoopS rec beta is b (max alpha (rec (pushB b i) alpha beta).1)
          (max best (rec (pushB b i) alpha beta).1)).2.2 n = some n
      exact ihr.2 n

theorem minLoopS_frame
    (rec : BoardState → Score → Score → Score × BoardState × List Op)
    (alpha : Score)
    (Hrec : ∀ (b : BoardState) (a bb : Score),
      (rec b a bb).2.1 = b ∧ ∀ n, runOps (rec b a bb).2.2 n = some n) :
    ∀ (is : List ℕ) (b : BoardState) (beta best : Score),
      (minLoopS rec alpha is b beta best).2.1 = b ∧
      ∀ n, runOps (minLoopS rec alpha is b beta best).2.2 n = some n := by
  intro is
  induction is with
  | nil => intro b beta best; exact ⟨rfl, fun n => rfl⟩
  | cons i is ih =>
    intro b beta best
    simp only [minLoopS]
    have hst : popB (rec (pushB b i) alpha beta).2.1 = b := by
      rw [(Hrec (pushB b i) alpha beta).1]
      exact push_pop_state b i
    have htr : ∀ n, runOps (rec (pushB b i) alpha beta).2.2 n = some n :=
      (Hrec (pushB b i) alpha beta).2
    by_cases hcut : min beta (rec (pushB b i) alpha beta).1 ≤ alpha
    · simp only [if_pos hcut]
      refine ⟨hst, fun n => ?_⟩
      show runOps ((rec (pushB b i) alpha beta).2.2 ++ [Op.pop]) (n + 1) = some n
      rw [runOps_append _ _ (n + 1) (n + 1) (htr (n + 1))]
      rfl
    · simp only [if_neg hcut]
      rw [hst]
      have ihr := ih b (min beta (rec (pushB b i) alpha beta).1)
        (min best (rec (pushB b i) alpha beta).1)
      refine ⟨ihr.1, fun n => ?_⟩
      show runOps ((rec (pushB b i) alpha beta).2.2 ++
        Op.pop :: (minLoopS rec alpha is b (min beta (rec (pushB b i) alpha beta).1)
          (min best (rec (pushB b i) alpha beta).1)).2.2) (n + 1) = some n
      rw [runOps_append _ _ (n + 1) (n + 1) (htr (n + 1))]
      exact ihr.2 n

theorem minimaxS_frame :
    ∀ (depth : ℕ) (b : BoardState) (alpha beta : Score) (maximizing : Bool),
      (minimaxS b depth alpha beta maximizing).2.1 = b ∧
      ∀ n, runOps (minimaxS b depth alpha beta maximizing).2.2 n = some n := by
  intro depth
  induction depth with
  | zero => intro b alpha beta maximizing; exact ⟨rfl, fun n => rfl⟩
  | succ d ih =>
    intro b alpha beta maximizing
    by_cases hover : b.1.over
    · simp only [minimaxS, if_pos hover]
      exact ⟨trivial, fun n => rfl⟩
    · cases maximizing with
      | true =>
        simp only [minimaxS, if_neg hover, if_pos rfl]
        exact maxLoopS_frame _ beta (fun b' a bb => ih b' a bb false)
          (List.range b.1.children.length) b alpha ⊥
      | false =>
        simp only [minimaxS, if_neg hover, Bool.false_eq_true, if_false]
        exact minLoopS_frame _ alpha (fun b' a bb => ih b' a bb true)
          (List.range b.1.children.length) b beta ⊤

theorem rootLoopS_frame :
    ∀ (is : List ℕ) (b : BoardState) (bv : Score) (bm : Option ℕ),
      (rootLoopS is b bv bm).2.1 = b ∧
      ∀ n, runOps (rootLoopS is b bv bm).2.2 n = some n := by
  intro is
  induction is with
  | nil => intro b bv bm; exact ⟨rfl, fun n => rfl⟩
  | cons i is ih =>
    intro b bv bm
    simp only [rootLoopS]
    have hst : popB (minimaxS (pushB b i) 2 ⊥ ⊤ false).2.1 = b := by
      rw [(minimaxS_frame 2 (pushB b i) ⊥ ⊤ false).1]
      exact push_pop_state b i
    have htr := (minimaxS_frame 2 (pushB b i) ⊥ ⊤ false).2
    by_cases hbest : bv < (minimaxS (pushB b i) 2 ⊥ ⊤ false).1
    · simp only [if_pos hbest]
      rw [hst]
      have ihr := ih b (minimaxS (pushB b i) 2 ⊥ ⊤ false).1 (some i)
      refine ⟨ihr.1, fun n => ?_⟩
      show runOps ((minimaxS (pushB b i) 2 ⊥ ⊤ false).2.2 ++
        Op.pop :: (rootLoopS is b (minimaxS (pushB b i) 2 ⊥ ⊤ false).1 (some i)).2.2)
        (n + 1) = some n
      rw [runOps_append _ _ (n + 1) (n + 1) (htr (n + 1))]
      exact ihr.2 n
    · simp only [if_neg hbest]
      rw [hst]
      have ihr := ih b bv bm
      refine ⟨ihr.1, fun n => ?_⟩
      show runOps ((minimaxS (pushB b i) 2 ⊥ ⊤ false).2.2 ++
        Op.pop :: (rootLoopS is b bv bm).2.2) (n + 1) = some n
      rw [runOps_append _ _ (n + 1) (n + 1) (htr (n + 1))]
      exact ihr.2 n

/-- C7: in both `minimax` and the root loop of `get_move`, every push of a
move is bracketed by exactly one pop (the operation trace is a balanced
bracket sequence: it never pops below the entry stack and ends at the entry
depth), and on return the shared board — current position and undo stack —
is restored exactly to its state at entry. Nothing the search executes can
fail, so this holds for every run. -/
theorem search_push_pop_bracketed :
    (∀ (b : BoardState) (depth : ℕ) (alpha beta : Score) (maximizing : Bool),
      (minimaxS b depth alpha beta maximizing).2.1 = b ∧
      ∀ n, runOps (minimaxS b depth alpha beta maximizing).2.2 n = some n) ∧
    (∀ b : BoardState,
      (get_moveS b).2.1 = b ∧
      ∀ n, runOps (get_moveS b).2.2 n = some n) := by
  constructor
  · intro b depth alpha beta maximizing
    exact minimaxS_frame depth b alpha beta maximizing
  · intro b
    exact rootLoopS_frame (List.range b.1.children.length) b ⊥ none

theorem evaluate_fold (b : EBoard) :
    ∀ (l : List (Fin 64)) (a : ℤ),
      l.foldl
        (fun evaluation square =>
          match b.piece_at square with
          | none => evaluation
          | some piece =>
            if piece.color then evaluation - values piece.piece_type
            else evaluation + values piece.piece_type)
        a = a + (l.map (matVal b)).sum := by
  intro l
  induction l with
  | nil => intro a; simp
  | cons sq l ih =>
    intro a
    rw [List.foldl_cons, ih, List.map_cons, List.sum_cons]
    have hstep :
        (match b.piece_at sq with
          | none => a
          | some piece =>
            if piece.color then a - values piece.piece_type
            else a + values piece.piece_type) = a + matVal b sq := by
      unfold matVal
      cases b.piece_at sq with
      | none => simp
      | some p =>
        cases hc : p.color with
        | true => simp [hc]; ring
        | false => simp [hc]
    rw [hstep]
    ring

/-- C8: on every position that is not checkmate, `evaluate_board` returns the
material sum with pawn=1, knight=3, bishop=3, rook=5, queen=9, king=0, added
for Black (the searching side) and subtracted for White, summed over every
occupied square; in particular a stalemate position (`is_stalemate` is never
consulted) is scored purely by this material sum. -/
theorem evaluate_board_material (b : EBoard) (h : b.is_checkmate = false) :
    evaluate_board b = ∑ square : Fin 64, matVal b square := by
  unfold evaluate_board
  rw [h]
  simp only [Bool.false_eq_true, if_false]
  rw [evaluate_fold b (List.finRange 64) 0, Fin.sum_univ_def]
  ring

theorem evaluate_board_material_witness :
    evaluate_board stalemateBoard = ∑ square : Fin 64, matVal stalemateBoard square :=
  evaluate_board_material stalemateBoard rfl

/-- C1 (code bug, observed behavior): at a checkmate with White to move
(Black has delivered mate and wins), `evaluate_board` returns `-9999` — the
score favoring White under the evaluator's own positive-favors-Black material
convention — although the claim (and the code's own `# Black wins` comment)
requires `+9999`; symmetrically Black-to-move-checkmated returns `+9999`.
Both sentinel branches are sign-flipped. -/
theorem evaluate_board_checkmate_sign_flipped :
    foolsMateBoard.is_checkmate = true ∧ foolsMateBoard.turn = true ∧
    evaluate_board foolsMateBoard = -9999 :=
  ⟨rfl, rfl, rfl⟩

/-- C9: for every integer pair (f, r) with 1 ≤ f ≤ 8 and 1 ≤ r ≤ 8, mapping
the external `"f_r"` square to the engine's algebraic identifier and back
yields the original string, and for every valid algebraic identifier
(`"a1"`..`"h8"`) the reverse round-trip also yields the original. -/
theorem coordinate_roundtrip :
    (∀ f r : ℕ, 1 ≤ f → f ≤ 8 → 1 ≤ r → r ≤ 8 →
      (map_to_algebraic (String.mk (natRepr f ++ '_' :: natRepr r))).bind
          map_from_algebraic
        = some (String.mk (natRepr f ++ '_' :: natRepr r))) ∧
    (∀ i j : Fin 8,
      (map_from_algebraic
            (String.mk [Char.ofNat (97 + i.val), Char.ofNat (49 + j.val)])).bind
          map_to_algebraic
        = some (String.mk [Char.ofNat (97 + i.val), Char.ofNat (49 + j.val)])) := by
  constructor
  · intro f r hf1 hf8 hr1 hr8
    interval_cases f <;> interval_cases r <;> decide
  · decide

theorem coordinate_roundtrip_witness :
    (map_to_algebraic "3_5").bind map_from_algebraic = some "3_5" :=
  coordinate_roundtrip.1 3 5 (by decide) (by decide) (by decide) (by decide)

theorem reconstruct_castling {inv : Inv} {p : RBoard}
    (h : reconstruct_board inv = .ok p) :
    computeCastling inv = .ok p.castling_rights := by
  unfold reconstruct_board at h
  cases hpl : placePieces inv (fun _ => none) with
  | error e => rw [hpl] at h; exact Except.noConfusion h
  | ok board =>
    rw [hpl] at h
    cases hcc : computeCastling inv with
    | error e => rw [hcc] at h; exact Except.noConfusion h
    | ok c =>
      rw [hcc] at h
      have : (⟨board, c, false⟩ : RBoard) = p := by
        exact Except.ok.inj h
      rw [← this]

theorem BB_H1_testBit :
    BB_H1.testBit 7 = true ∧ BB_H1.testBit 0 = false ∧
    BB_H1.testBit 63 = false ∧ BB_H1.testBit 56 = false := by decide

theorem BB_A1_testBit :
    BB_A1.testBit 7 = false ∧ BB_A1.testBit 0 = true ∧
    BB_A1.testBit 63 = false ∧ BB_A1.testBit 56 = false := by decide

theorem BB_H8_testBit :
    BB_H8.testBit 7 = false ∧ BB_H8.testBit 0 = false ∧
    BB_H8.testBit 63 = true ∧ BB_H8.testBit 56 = false := by decide

theorem BB_A8_testBit :
    BB_A8.testBit 7 = false ∧ BB_A8.testBit 0 = false ∧
    BB_A8.testBit 63 = false ∧ BB_A8.testBit 56 = true := by decide

theorem BB_H8_mod_two : ¬ BB_H8 % 2 = 1 := by decide

theorem BB_A8_mod_two : ¬ BB_A8 % 2 = 1 := by decide

theorem BB_H1_mod_two : ¬ BB_H1 % 2 = 1 := by decide

theorem blackC_spec {inv : Inv} {c0 c : ℕ} (h : blackC inv c0 = .ok c) :
    (c.testBit 7 = c0.testBit 7 ∧ c.testBit 0 = c0.testBit 0) ∧
    (c.testBit 63 = true →
      c0.testBit 63 = true ∨
        (getMoved inv "b_king" = .ok false ∧ getMoved inv "b_rook2" = .ok false)) ∧
    (c.testBit 56 = true →
      c0.testBit 56 = true ∨
        (getMoved inv "b_king" = .ok false ∧ getMoved inv "b_rook1" = .ok false)) := by
  unfold blackC at h
  cases hk : getMoved inv "b_king" with
  | error e => rw [hk] at h; exact Except.noConfusion h
  | ok bk =>
    rw [hk] at h
    cases bk with
    | true =>
      simp only at h
      have hc : c0 = c := Except.ok.inj h
      subst hc
      exact ⟨⟨rfl, rfl⟩, fun hb => Or.inl hb, fun hb => Or.inl hb⟩
    | false =>
      simp only at h
      cases h2 : getMoved inv "b_rook2" with
      | error e => rw [h2] at h; exact Except.noConfusion h
      | ok br2 =>
        rw [h2] at h
        cases h3 : getMoved inv "b_rook1" with
        | error e => rw [h3] at h; exact Except.noConfusion h
        | ok br1 =>
          rw [h3] at h
          simp only at h
          cases br2 <;> cases br1 <;>
            simp only [if_true, if_false, Bool.false_eq_true, ite_true, ite_false] at h <;>
            rw [← Except.ok.inj h] <;>
            refine ⟨⟨?_, ?_⟩, ?_, ?_⟩ <;>
            simp [Nat.testBit_lor, hk, h2, h3, BB_H8_mod_two, BB_A8_mod_two,
              BB_H8_testBit.1, BB_H8_testBit.2.1, BB_H8_testBit.2.2.1, BB_H8_testBit.2.2.2,
              BB_A8_testBit.1, BB_A8_testBit.2.1, BB_A8_testBit.2.2.1, BB_A8_testBit.2.2.2]

theorem getMoved_ok_iff {inv : Inv} {key : String} {m : Bool} :
    getMoved inv key = .ok m ↔ movedOf inv key = some m := by
  unfold getMoved
  cases movedOf inv key <;> simp

theorem computeCastling_bits {inv : Inv} {c : ℕ}
    (h : computeCastling inv = .ok c) :
    (c.testBit 7 = true →
      getMoved inv "w_king" = .ok false ∧ getMoved inv "w_rook2" = .ok false) ∧
    (c.testBit 0 = true →
      getMoved inv "w_king" = .ok false ∧ getMoved inv "w_rook1" = .ok false) ∧
    (c.testBit 63 = true →
      getMoved inv "b_king" = .ok false ∧ getMoved inv "b_rook2" = .ok false) ∧
    (c.testBit 56 = true →
      getMoved inv "b_king" = .ok false ∧ getMoved inv "b_rook1" = .ok false) := by
  unfold computeCastling at h
  cases hw : getMoved inv "w_king" with
  | error e => rw [hw] at h; exact Except.noConfusion h
  | ok wk =>
    rw [hw] at h
    cases wk with
    | true =>
      simp only at h
      have B := blackC_spec h
      refine ⟨?_, ?_, ?_, ?_⟩
      · intro hbit; rw [B.1.1] at hbit; exact absurd hbit (by decide)
      · intro hbit; rw [B.1.2] at hbit; exact absurd hbit (by decide)
      · intro hbit
        rcases B.2.1 hbit with h0 | hf
        · exact absurd h0 (by decide)
        · exact hf
      · intro hbit
        rcases B.2.2 hbit with h0 | hf
        · exact absurd h0 (by decide)
        · exact hf
    | false =>
      simp only at h
      cases h2 : getMoved inv "w_rook2" with
      | error e => rw [h2] at h; exact Except.noConfusion h
      | ok wr2 =>
        rw [h2] at h
        cases h3 : getMoved inv "w_rook1" with
        | error e => rw [h3] at h; exact Except.noConfusion h
        | ok wr1 =>
          rw [h3] at h
          simp only at h
          cases wr2 <;> cases wr1 <;>
            simp only [if_true, if_false, Bool.false_eq_true, ite_true,
              ite_false] at h <;>
            have B := blackC_spec h <;>
            refine ⟨?_, ?_, ?_, ?_⟩ <;>
            intro hbit
          -- wr2 = false, wr1 = false: both white rights granted
          · exact ⟨rfl, rfl⟩
          · exact ⟨rfl, rfl⟩
          · rcases B.2.1 hbit with h0 | hf
            · exact absurd h0 (by decide)
            · exact hf
          · rcases B.2.2 hbit with h0 | hf
            · exact absurd h0 (by decide)
            · exact hf
          -- wr2 = false, wr1 = true: only king-side
          · exact ⟨rfl, rfl⟩
          · rw [B.1.2] at hbit; exact absurd hbit (by decide)
          · rcases B.2.1 hbit with h0 | hf
            · exact absurd h0 (by decide)
            · exact hf
          · rcases B.2.2 hbit with h0 | hf
            · exact absurd h0 (by decide)
            · exact hf
          -- wr2 = true, wr1 = false: only queen-side
          · rw [B.1.1] at hbit; exact absurd hbit (by decide)
          · exact ⟨rfl, rfl⟩
          · rcases B.2.1 hbit with h0 | hf
            · exact absurd h0 (by decide)
            · exact hf
          · rcases B.2.2 hbit with h0 | hf
            · exact absurd h0 (by decide)
            · exact hf
          -- wr2 = true, wr1 = true: no white rights
          · rw [B.1.1] at hbit; exact absurd hbit (by decide)
          · rw [B.1.2] at hbit; exact absurd hbit (by decide)
          · rcases B.2.1 hbit with h0 | hf
            · exact absurd h0 (by decide)
            · exact hf
          · rcases B.2.2 hbit with h0 | hf
            · exact absurd h0 (by decide)
            · exact hf

/-- C4: a side's king-side (resp. queen-side) castling right is granted only
if that side's king record and the corresponding rook record both have
`moved = false` (bits 7/0/63/56 of the castling bitboard are H1, A1, H8,
A8); and the inventory with only the white king and white king-side rook
unmoved yields exactly white king-side castling (`castling_rights = BB_H1`)
and no other right. -/
theorem castling_rights_only_if :
    (∀ (inv : Inv) (p : RBoard), reconstruct_board inv = .ok p →
      (p.castling_rights.testBit 7 = true →
        movedOf inv "w_king" = some false ∧ movedOf inv "w_rook2" = some false) ∧
      (p.castling_rights.testBit 0 = true →
        movedOf inv "w_king" = some false ∧ movedOf inv "w_rook1" = some false) ∧
      (p.castling_rights.testBit 63 = true →
        movedOf inv "b_king" = some false ∧ movedOf inv "b_rook2" = some false) ∧
      (p.castling_rights.testBit 56 = true →
        movedOf inv "b_king" = some false ∧ movedOf inv "b_rook1" = some false)) ∧
    Except.map (fun p => p.castling_rights) (reconstruct_board c4Inv) = .ok BB_H1 := by
  constructor
  · intro inv p hok
    have B := computeCastling_bits (reconstruct_castling hok)
    simp only [getMoved_ok_iff] at B
    exact B
  · rfl

theorem castling_rights_only_if_witness :
    movedOf c4Inv "w_king" = some false ∧ movedOf c4Inv "w_rook2" = some false :=
  (castling_rights_only_if.1 c4Inv (builtBoard c4Inv) rfl).1 (by decide)

/-- C5 counterexample: the empty inventory has no `w_king` record, and the
builder fails with `KeyError('w_king')` instead of treating the missing
record as moved and building a position. -/
theorem reconstruct_board_empty_fails :
    reconstruct_board [] = .error (.keyError "w_king") := rfl

theorem getMoved_none {inv : Inv} {key : String}
    (h : lookupRec inv key = none) :
    getMoved inv key = .error (.keyError key) := by
  unfold getMoved movedOf
  rw [h]
  rfl

theorem getMoved_of_lookup {inv : Inv} {key : String} {r : PieceRec}
    (h : lookupRec inv key = some r) :
    getMoved inv key = .ok r.moved := by
  unfold getMoved movedOf
  rw [h]
  rfl

theorem blackC_missing_bking {inv : Inv} {c0 : ℕ}
    (h : lookupRec inv "b_king" = none) :
    blackC inv c0 = .error (.keyError "b_king") := by
  unfold blackC
  rw [getMoved_none h]

theorem blackC_missing_brook2 {inv : Inv} {c0 : ℕ}
    (hbk : movedOf inv "b_king" = some false)
    (h : lookupRec inv "b_rook2" = none) :
    blackC inv c0 = .error (.keyError "b_rook2") := by
  unfold blackC
  rw [getMoved_ok_iff.mpr hbk, getMoved_none h]

theorem blackC_missing_brook1 {inv : Inv} {c0 : ℕ} {r2 : PieceRec}
    (hbk : movedOf inv "b_king" = some false)
    (h2 : lookupRec inv "b_rook2" = some r2)
    (h : lookupRec inv "b_rook1" = none) :
    blackC inv c0 = .error (.keyError "b_rook1") := by
  unfold blackC
  rw [getMoved_ok_iff.mpr hbk, getMoved_of_lookup h2, getMoved_none h]

theorem computeCastling_missing_wking {inv : Inv}
    (h : lookupRec inv "w_king" = none) :
    computeCastling inv = .error (.keyError "w_king") := by
  unfold computeCastling
  rw [getMoved_none h]

theorem computeCastling_missing_wrook2 {inv : Inv}
    (hk : movedOf inv "w_king" = some false)
    (h : lookupRec inv "w_rook2" = none) :
    computeCastling inv = .error (.keyError "w_rook2") := by
  unfold computeCastling
  rw [getMoved_ok_iff.mpr hk, getMoved_none h]

theorem computeCastling_missing_wrook1 {inv : Inv} {r2 : PieceRec}
    (hk : movedOf inv "w_king" = some false)
    (h2 : lookupRec inv "w_rook2" = some r2)
    (h : lookupRec inv "w_rook1" = none) :
    computeCastling inv = .error (.keyError "w_rook1") := by
  unfold computeCastling
  rw [getMoved_ok_iff.mpr hk, getMoved_of_lookup h2, getMoved_none h]

theorem computeCastling_whiteOk {inv : Inv} (h : whiteReadsOk inv) :
    ∃ c0 : ℕ, computeCastling inv = blackC inv c0 := by
  rcases h with h1 | ⟨hk, ⟨r2, h2⟩, ⟨r1, h3⟩⟩
  · refine ⟨0, ?_⟩
    unfold computeCastling
    rw [getMoved_ok_iff.mpr h1]
  · refine ⟨if r1.moved then (if r2.moved then 0 else (0 : ℕ) ||| BB_H1)
      else (if r2.moved then 0 else (0 : ℕ) ||| BB_H1) ||| BB_A1, ?_⟩
    unfold computeCastling
    rw [getMoved_ok_iff.mpr hk, getMoved_of_lookup h2, getMoved_of_lookup h3]

theorem reconstruct_error_of_castling {inv : Inv}
    {board : Fin 64 → Option Piece} {e : PyErr}
    (hpl : placePieces inv (fun _ => none) = .ok board)
    (hc : computeCastling inv = .error e) :
    reconstruct_board inv = .error e := by
  unfold reconstruct_board
  rw [hpl, hc]

/-- C5 (amended): whenever the placement loop succeeds, a king or rook
record that is missing at the point the castling derivation reads it makes
`reconstruct_board` fail with exactly `KeyError(name)` — `w_king` is always
read; `w_rook2` then `w_rook1` are read when the white king is unmoved;
`b_king` is read once the white reads succeeded; `b_rook2` then `b_rook1`
when the black king is unmoved. The missing record is never treated as
`moved = true` and no position is built. (A record the derivation never
reads causes no failure, and a placement failure surfaces its own earlier
error instead of a KeyError.) -/
theorem reconstruct_board_missing_key_fails (inv : Inv)
    (board : Fin 64 → Option Piece)
    (hpl : placePieces inv (fun _ => none) = .ok board) :
    (lookupRec inv "w_king" = none →
      reconstruct_board inv = .error (.keyError "w_king")) ∧
    (movedOf inv "w_king" = some false → lookupRec inv "w_rook2" = none →
      reconstruct_board inv = .error (.keyError "w_rook2")) ∧
    (movedOf inv "w_king" = some false →
      (∃ r, lookupRec inv "w_rook2" = some r) →
      lookupRec inv "w_rook1" = none →
      reconstruct_board inv = .error (.keyError "w_rook1")) ∧
    (whiteReadsOk inv → lookupRec inv "b_king" = none →
      reconstruct_board inv = .error (.keyError "b_king")) ∧
    (whiteReadsOk inv → movedOf inv "b_king" = some false →
      lookupRec inv "b_rook2" = none →
      reconstruct_board inv = .error (.keyError "b_rook2")) ∧
    (whiteReadsOk inv → movedOf inv "b_king" = some false →
      (∃ r, lookupRec inv "b_rook2" = some r) →
      lookupRec inv "b_rook1" = none →
      reconstruct_board inv = .error (.keyError "b_rook1")) := by
  refine ⟨?_, ?_, ?_, ?_, ?_, ?_⟩
  · intro h
    exact reconstruct_error_of_castling hpl (computeCastling_missing_wking h)
  · intro hk h
    exact reconstruct_error_of_castling hpl (computeCastling_missing_wrook2 hk h)
  · rintro hk ⟨r2, h2⟩ h
    exact reconstruct_error_of_castling hpl
      (computeCastling_missing_wrook1 hk h2 h)
  · intro hw h
    rcases computeCastling_whiteOk hw with ⟨c0, hcc⟩
    exact reconstruct_error_of_castling hpl
      (by rw [hcc]; exact blackC_missing_bking h)
  · intro hw hbk h
    rcases computeCastling_whiteOk hw with ⟨c0, hcc⟩
    exact reconstruct_error_of_castling hpl
      (by rw [hcc]; exact blackC_missing_brook2 hbk h)
  · rintro hw hbk ⟨r2, h2⟩ h
    rcases computeCastling_whiteOk hw with ⟨c0, hcc⟩
    exact reconstruct_error_of_castling hpl
      (by rw [hcc]; exact blackC_missing_brook1 hbk h2 h)

theorem reconstruct_board_missing_key_fails_witness :
    reconstruct_board missingRookInv = .error (.keyError "w_rook2") :=
  (reconstruct_board_missing_key_fails missingRookInv
    (placedOf missingRookInv) rfl).2.1 rfl rfl

/-- C6 counterexample: with two non-captured records on the same square the
builder does not fail — it builds a position. -/
theorem reconstruct_board_dup_builds :
    reconstruct_board dupInv = .ok (builtBoard dupInv) := rfl

theorem placePieces_error_congr :
    ∀ (inv : Inv) (b0 b0' : Fin 64 → Option Piece) (e : PyErr),
      placePieces inv b0 = .error e ↔ placePieces inv b0' = .error e := by
  intro inv
  induction inv with
  | nil => intro b0 b0' e; simp [placePieces]
  | cons p rest ih =>
    intro b0 b0' e
    obtain ⟨k, piece⟩ := p
    simp only [placePieces]
    by_cases hcap : piece.captured = true
    · rw [if_pos hcap, if_pos hcap]
      exact ih b0 b0' e
    · rw [if_neg hcap, if_neg hcap]
      cases h1 : typeSplit1 piece.type with
      | none => exact Iff.rfl
      | some p_type =>
        dsimp only
        cases h2 : map_to_algebraic piece.position with
        | none => exact Iff.rfl
        | some alg_pos =>
          dsimp only
          cases h3 : parse_square alg_pos with
          | none => exact Iff.rfl
          | some square =>
            dsimp only
            cases h4 : type_map p_type with
            | none => exact Iff.rfl
            | some pt =>
              dsimp only
              exact ih _ _ e

theorem placePieces_preserve :
    ∀ (inv : Inv) (b0 board : Fin 64 → Option Piece) (s : Fin 64),
      placePieces inv b0 = .ok board →
      (∀ p ∈ inv, p.2.captured = false → recSquare p.2 ≠ some s) →
      board s = b0 s := by
  intro inv
  induction inv with
  | nil =>
    intro b0 board s h _
    rw [← Except.ok.inj h]
  | cons p rest ih =>
    intro b0 board s h hns
    obtain ⟨k, piece⟩ := p
    simp only [placePieces] at h
    by_cases hcap : piece.captured = true
    · rw [if_pos hcap] at h
      exact ih b0 board s h (fun q hq => hns q (List.mem_cons_of_mem _ hq))
    · rw [if_neg hcap] at h
      have hcapf : piece.captured = false := by
        revert hcap; cases piece.captured <;> simp
      cases h1 : typeSplit1 piece.type with
      | none => rw [h1] at h; exact Except.noConfusion h
      | some p_type =>
        rw [h1] at h
        dsimp only at h
        cases h2 : map_to_algebraic piece.position with
        | none => rw [h2] at h; exact Except.noConfusion h
        | some alg_pos =>
          rw [h2] at h
          dsimp only at h
          cases h3 : parse_square alg_pos with
          | none => rw [h3] at h; exact Except.noConfusion h
          | some square =>
            rw [h3] at h
            dsimp only at h
            cases h4 : type_map p_type with
            | none => rw [h4] at h; exact Except.noConfusion h
            | some pt =>
              rw [h4] at h
              dsimp only at h
              have hrec := ih _ board s h
                (fun q hq => hns q (List.mem_cons_of_mem _ hq))
              have hss : ¬ (s = square) := by
                intro heq
                subst heq
                apply hns (k, piece) (List.mem_cons_self _ _) hcapf
                unfold recSquare
                rw [h2]
                simpa using h3
              rw [hrec]
              simp only [if_neg hss]

theorem placePieces_later_wins :
    ∀ (pre : Inv) (k : String) (r : PieceRec) (post : Inv)
      (b0 board : Fin 64 → Option Piece) (s : Fin 64) (pc : Piece),
      placePieces (pre ++ (k, r) :: post) b0 = .ok board →
      r.captured = false → recSquare r = some s → recPieceOf r = some pc →
      (∀ p ∈ post, p.2.captured = false → recSquare p.2 ≠ some s) →
      board s = some pc := by
  intro pre
  induction pre with
  | nil =>
    intro k r post b0 board s pc h hcap hsq hpc hns
    rw [List.nil_append] at h
    simp only [placePieces] at h
    rw [if_neg (by simp [hcap])] at h
    unfold recSquare at hsq
    unfold recPieceOf at hpc
    cases h1 : typeSplit1 r.type with
    | none => rw [h1] at hpc; exact Option.noConfusion hpc
    | some p_type =>
      rw [h1] at h hpc
      dsimp only at h
      simp only [Option.some_bind] at hpc
      cases h2 : map_to_algebraic r.position with
      | none => rw [h2] at hsq; exact Option.noConfusion hsq
      | some alg_pos =>
        rw [h2] at h hsq
        dsimp only at h
        simp only [Option.some_bind] at hsq
        rw [hsq] at h
        dsimp only at h
        cases h4 : type_map p_type with
        | none => rw [h4] at hpc; exact Option.noConfusion hpc
        | some pt =>
          rw [h4] at h hpc
          dsimp only at h
          simp only [Option.map_some'] at hpc
          have hpres := placePieces_preserve post _ board s h hns
          rw [hpres]
          simp only [if_pos rfl]
          exact hpc
  | cons q pre' ih =>
    intro k r post b0 board s pc h hcap hsq hpc hns
    obtain ⟨k0, piece0⟩ := q
    rw [List.cons_append] at h
    simp only [placePieces] at h
    by_cases hc0 : piece0.captured = true
    · rw [if_pos hc0] at h
      exact ih k r post b0 board s pc h hcap hsq hpc hns
    · rw [if_neg hc0] at h
      cases h1 : typeSplit1 piece0.type with
      | none => rw [h1] at h; exact Except.noConfusion h
      | some p_type =>
        rw [h1] at h
        dsimp only at h
        cases h2 : map_to_algebraic piece0.position with
        | none => rw [h2] at h; exact Except.noConfusion h
        | some alg_pos =>
          rw [h2] at h
          dsimp only at h
          cases h3 : parse_square alg_pos with
          | none => rw [h3] at h; exact Except.noConfusion h
          | some square =>
            rw [h3] at h
            dsimp only at h
            cases h4 : type_map p_type with
            | none => rw [h4] at h; exact Except.noConfusion h
            | some pt =>
              rw [h4] at h
              dsimp only at h
              exact ih k r post _ board s pc h hcap hsq hpc hns

/-- C6 (amended): the Position Builder performs no duplicate-occupancy check
and never fails on account of occupancy: whether the placement loop fails,
and with which error, is independent of the current board contents (so two
non-captured records mapping to the same square never cause a failure), and
the non-captured record iterated last among those mapping to a square
silently determines that square's occupant, overwriting the earlier ones —
concretely, in `dupInv` the black knight, iterated after the white queen on
the same square `"4_4"`, ends up on square 27 of the built position. No
`DuplicateOccupantError` exists in the code. -/
theorem reconstruct_board_dup_overwrites :
    (∀ (inv : Inv) (b0 b0' : Fin 64 → Option Piece) (e : PyErr),
      placePieces inv b0 = .error e ↔ placePieces inv b0' = .error e) ∧
    (∀ (pre : Inv) (k : String) (r : PieceRec) (post : Inv)
        (b0 board : Fin 64 → Option Piece) (s : Fin 64) (pc : Piece),
      placePieces (pre ++ (k, r) :: post) b0 = .ok board →
      r.captured = false → recSquare r = some s → recPieceOf r = some pc →
      (∀ p ∈ post, p.2.captured = false → recSquare p.2 ≠ some s) →
      board s = some pc) ∧
    Except.map (fun p => p.piece_at 27) (reconstruct_board dupInv) =
      .ok (some ⟨.knight, false⟩) :=
  ⟨placePieces_error_congr, placePieces_later_wins, rfl⟩

theorem reconstruct_board_dup_overwrites_witness :
    placedOf dupInv (27 : Fin 64) = some ⟨.knight, false⟩ :=
  reconstruct_board_dup_overwrites.2.1
    [("w_king", ⟨"w_king", "5_1", false, true⟩),
     ("w_rook1", ⟨"w_rook", "1_1", false, true⟩),
     ("w_rook2", ⟨"w_rook", "8_1", false, true⟩),
     ("b_king", ⟨"b_king", "5_8", false, true⟩),
     ("b_rook1", ⟨"b_rook", "1_8", false, true⟩),
     ("b_rook2", ⟨"b_rook", "8_8", false, true⟩),
     ("extra1", ⟨"w_queen", "4_4", false, true⟩)]
    "extra2" ⟨"b_knight", "4_4", false, true⟩ []
    (fun _ => none) (placedOf dupInv) 27 ⟨.knight, false⟩
    rfl rfl rfl rfl (fun p hp => absurd hp (List.not_mem_nil p))

theorem computeCastling_congr {inv1 inv2 : Inv}
    (hwk : movedOf inv1 "w_king" = movedOf inv2 "w_king")
    (hwr1 : movedOf inv1 "w_rook1" = movedOf inv2 "w_rook1")
    (hwr2 : movedOf inv1 "w_rook2" = movedOf inv2 "w_rook2")
    (hbk : movedOf inv1 "b_king" = movedOf inv2 "b_king")
    (hbr1 : movedOf inv1 "b_rook1" = movedOf inv2 "b_rook1")
    (hbr2 : movedOf inv1 "b_rook2" = movedOf inv2 "b_rook2") :
    computeCastling inv1 = computeCastling inv2 := by
  have g1 : getMoved inv1 "w_king" = getMoved inv2 "w_king" := by
    unfold getMoved; rw [hwk]
  have g2 : getMoved inv1 "w_rook1" = getMoved inv2 "w_rook1" := by
    unfold getMoved; rw [hwr1]
  have g3 : getMoved inv1 "w_rook2" = getMoved inv2 "w_rook2" := by
    unfold getMoved; rw [hwr2]
  have g4 : getMoved inv1 "b_king" = getMoved inv2 "b_king" := by
    unfold getMoved; rw [hbk]
  have g5 : getMoved inv1 "b_rook1" = getMoved inv2 "b_rook1" := by
    unfold getMoved; rw [hbr1]
  have g6 : getMoved inv1 "b_rook2" = getMoved inv2 "b_rook2" := by
    unfold getMoved; rw [hbr2]
  unfold computeCastling blackC
  rw [g1, g2, g3, g4, g5, g6]

/-- C10: the castling rights of the built position depend only on the
`moved` fields of the six records `w_king`, `w_rook1`, `w_rook2`, `b_king`,
`b_rook1`, `b_rook2`: inventories agreeing on those yield identical rights;
and a rook record with `captured = true` but `moved = false` still grants
its side's right (the captured white king-side rook still yields
`castling_rights = BB_H1`). -/
theorem castling_depends_only_on_moved_flags :
    (∀ (inv1 inv2 : Inv) (p1 p2 : RBoard),
      reconstruct_board inv1 = .ok p1 → reconstruct_board inv2 = .ok p2 →
      movedOf inv1 "w_king" = movedOf inv2 "w_king" →
      movedOf inv1 "w_rook1" = movedOf inv2 "w_rook1" →
      movedOf inv1 "w_rook2" = movedOf inv2 "w_rook2" →
      movedOf inv1 "b_king" = movedOf inv2 "b_king" →
      movedOf inv1 "b_rook1" = movedOf inv2 "b_rook1" →
      movedOf inv1 "b_rook2" = movedOf inv2 "b_rook2" →
      p1.castling_rights = p2.castling_rights) ∧
    Except.map (fun p => p.castling_rights) (reconstruct_board capturedRookInv) =
      .ok BB_H1 := by
  constructor
  · intro inv1 inv2 p1 p2 h1 h2 e1 e2 e3 e4 e5 e6
    have c1 := reconstruct_castling h1
    have c2 := reconstruct_castling h2
    have hc := computeCastling_congr e1 e2 e3 e4 e5 e6
    rw [c1, c2] at hc
    exact Except.ok.inj hc
  · rfl

theorem castling_depends_only_on_moved_flags_witness :
    (builtBoard capturedRookInv).castling_rights =
      (builtBoard capturedRookInv2).castling_rights :=
  castling_depends_only_on_moved_flags.1 capturedRookInv capturedRookInv2
    (builtBoard capturedRookInv) (builtBoard capturedRookInv2)
    rfl rfl rfl rfl rfl rfl rfl rfl

end Brain
